import Mathlib

/-!
Shallow embedding of the pigeoneer watcher (Path of Exile trade notifier).

Source files embedded here:
  - src/pigeoneer/telegram.py : message chunking and sequential chunk delivery
  - src/pigeoneer/watcher.py  : per-line trade extraction (marker test, regex
    findall for the pattern (digits)(spaces)(currency alternation), split on
    the bracket and stash markers), the tail-follow loop, and run() startup checks
  - src/pigeoneer/cli.py      : main() exit behaviour
  - run.py                    : the legacy duplicate Watcher (pattern construction)

Python strings are modelled as List Char; machine integers do not occur.
The regex engine is modelled concretely for the pattern family
(\d+)\s*(a1|a2|...) with ordered alternation and greedy backtracking,
which is exactly the pattern the source constructs.
-/

namespace Pigeoneer

abbrev Chars := List Char

/-- MAX_LEN from telegram.py: maximum Telegram message length. -/
def MAX_LEN : Nat := 4096

/-- Ceiling division, used to state the chunk-count property. -/
def ceilDiv (a b : Nat) : Nat := (a + b - 1) / b

/-- Fuel-indexed chunk splitter mirroring the loop
`for i in range(0, len(text), MAX_LEN): part = text[i:i+MAX_LEN]`.
Each iteration takes the next MAX_LEN characters. -/
def splitChunksF : Nat → Chars → List Chars
  | 0, _ => []
  | _, [] => []
  | f + 1, c :: cs => (c :: cs).take MAX_LEN :: splitChunksF f ((c :: cs).drop MAX_LEN)

/-- Chunk splitter with enough fuel (one unit per character suffices). -/
def splitChunks (s : Chars) : List Chars := splitChunksF s.length s

/-- send_message from telegram.py, sending side effects abstracted away:
the list of texts passed to _send_telegram, in call order.
`if len(text) <= MAX_LEN` sends the whole text in one call; otherwise the
range loop sends MAX_LEN-sized slices. -/
def sendMessageChunks (text : Chars) : List Chars :=
  if text.length ≤ MAX_LEN then [text] else splitChunks text

/-- Sequential delivery of chunks, mirroring the loop in send_message where
_send_telegram may raise: `fail i` says the i-th outbound call raises.
Returns the indices of calls that were made successfully (in order) and
whether the whole send completed without an exception. An exception from
call i aborts the loop at once. -/
def sendSeq (fail : Nat → Bool) : Nat → List Chars → List Nat × Bool
  | _, [] => ([], true)
  | i, _ :: cs =>
    if fail i then ([], false)
    else
      let r := sendSeq fail (i + 1) cs
      (i :: r.1, r.2)

/-- Whole send_message run under a failure oracle for the outbound calls. -/
def sendMessageRun (fail : Nat → Bool) (text : Chars) : List Nat × Bool :=
  sendSeq fail 0 (sendMessageChunks text)

/-! ## Regex model for the pattern (\d+)\s*(alt1|alt2|...) -/

/-- Python regex \s over the ASCII range (the source lines are ASCII). -/
def isPySpace (c : Char) : Bool :=
  c = ' ' || c = '\t' || c = '\n' || c = '\r' || c = '\x0b' || c = '\x0c'

/-- Ordered alternation: try each currency name left to right as a literal
at the current position; on success return the name and the rest. -/
def tryAlts (alts : List String) (s : Chars) : Option (String × Chars) :=
  match alts with
  | [] => none
  | a :: rest =>
    if a.toList.isPrefixOf s then some (a, s.drop a.toList.length)
    else tryAlts rest s

/-- Greedy \s* with backtracking: having up to j leading spaces available in s,
try consuming j of them first, then j-1, ... down to 0. -/
def spacesAlts (alts : List String) : Nat → Chars → Option (String × Chars)
  | 0, s => tryAlts alts s
  | j + 1, s =>
    match tryAlts alts (s.drop (j + 1)) with
    | some r => some r
    | none => spacesAlts alts j s

/-- Greedy \d+ with backtracking: try consuming k digits first, then k-1, ...
down to 1; after the digits, match \s* then the alternation. Returns the
digit group, the currency group and the rest after the whole match. -/
def digitsSpacesAlts (alts : List String) : Nat → Chars → Option (String × String × Chars)
  | 0, _ => none
  | k + 1, s =>
    let afterD := s.drop (k + 1)
    match spacesAlts alts (afterD.takeWhile isPySpace).length afterD with
    | some (a, rest) => some (((s.take (k + 1)).asString, a, rest))
    | none => digitsSpacesAlts alts k s

/-- One attempt of the pattern anchored at the start of s: the match must
begin with at least one digit. -/
def matchAt (alts : List String) (s : Chars) : Option (String × String × Chars) :=
  digitsSpacesAlts alts (s.takeWhile Char.isDigit).length s

/-- Fuel-indexed re.findall: scan left to right; at each position try a match;
on success record the two groups and resume after the match, else advance one
character. Every match consumes at least one character, so fuel = length
suffices. -/
def findAllF (alts : List String) : Nat → Chars → List (String × String)
  | 0, _ => []
  | _, [] => []
  | f + 1, c :: cs =>
    match matchAt alts (c :: cs) with
    | some (d, a, rest) => (d, a) :: findAllF alts f rest
    | none => findAllF alts f cs

/-- re.findall(pattern, s) for the configured pattern over currency names. -/
def findAll (alts : List String) (s : Chars) : List (String × String) :=
  findAllF alts s.length s

/-! ## Line extraction (watcher.py, body of the for-loop in watch_file) -/

/-- Python str.split(sep) for a single-character separator: split at every
occurrence; n separators give n+1 fields, possibly empty. -/
def pySplitAux (sep : Char) : Chars → Chars → List Chars
  | acc, [] => [acc.reverse]
  | acc, c :: cs =>
    if c = sep then acc.reverse :: pySplitAux sep [] cs
    else pySplitAux sep (c :: acc) cs

/-- Python line.split(sep) for a one-character sep. -/
def pySplit (sep : Char) (s : Chars) : List Chars := pySplitAux sep [] s

/-- Python line.split(sub)[0] for a multi-character sub: the characters before
the first occurrence of sub, or the whole string when sub does not occur. -/
def takeBeforeSub (sub : Chars) : Chars → Chars
  | [] => []
  | c :: cs =>
    if sub.isPrefixOf (c :: cs) then []
    else c :: takeBeforeSub sub cs

/-- Python substring containment (the `in` operator on str): sub occurs as a
contiguous run somewhere in s. -/
def containsSub (sub : Chars) : Chars → Bool
  | [] => sub.isEmpty
  | c :: cs => sub.isPrefixOf (c :: cs) || containsSub sub cs

/-- The trade-whisper marker whose containment in the line watch_file tests
first. -/
def fromMarker : Chars := "@From".toList

/-- The stash-tab marker at which watch_file truncates the line before
pattern matching. -/
def stashMarker : Chars := "(stash".toList

/-- Default currency list from the Watcher constructor. -/
def defaultCurrency : List String := ["divine", "chaos", "divines"]

/-- The trade_request dict built in watch_file, together with the raw
findall result it was built from. -/
structure TradeEvent where
  tradeMessage : String
  item : String
  salePrice : String
  pairs : List (String × String)
deriving DecidableEq, Repr

/-- Outcome of running the loop body on one line: no event (marker absent or
zero matches), an event, or an uncaught IndexError from indexing field 1 of
the bracket split when the line contains no closing bracket. -/
inductive LineResult
  | noEvent
  | event (e : TradeEvent)
  | err
deriving DecidableEq, Repr

/-- Sale Price rendering: each (amount, currency) pair joined with a single
space, the pairs joined with the separator word and surrounded by spaces,
exactly as the two join calls in watch_file do. -/
def joinPairs (ms : List (String × String)) : String :=
  String.intercalate " and " (ms.map (fun p => p.1 ++ " " ++ p.2))

/-- Body of the for-loop in watch_file applied to one line (the line text is
exactly what follow yielded, newline included). Evaluation order follows the
source: the marker test, then findall on the text truncated at the first
stash marker, then (only when matches exist) the dict literal whose first
value indexes field 1 of the bracket split and raises IndexError when the
line contains no closing bracket. -/
def processLine (alts : List String) (line : Chars) : LineResult :=
  if containsSub fromMarker line then
    let ms := findAll alts (takeBeforeSub stashMarker line)
    if ms = [] then LineResult.noEvent
    else
      match (pySplit ']' line)[1]? with
      | none => LineResult.err
      | some m =>
        LineResult.event
          { tradeMessage := m.asString
            item := "N/A"
            salePrice := joinPairs ms
            pairs := ms }
  else LineResult.noEvent

/-- Running the for-loop over a list of yielded lines. An uncaught IndexError
aborts the loop (it propagates to the outer try of watch_file); events from
earlier lines were already emitted. Returns the emitted events and whether
the pass finished without an exception. -/
def processLines (alts : List String) : List Chars → List TradeEvent × Bool
  | [] => ([], true)
  | l :: ls =>
    match processLine alts l with
    | LineResult.err => ([], false)
    | LineResult.noEvent => processLines alts ls
    | LineResult.event e =>
      let r := processLines alts ls
      (e :: r.1, r.2)

/-- True when the loop body raises on this line. -/
def lineErr (alts : List String) (l : Chars) : Bool :=
  match processLine alts l with
  | LineResult.err => true
  | _ => false

/-- The events the loop body yields for each line of a list, ignoring aborts. -/
def lineEvents (alts : List String) (ls : List Chars) : List TradeEvent :=
  ls.filterMap (fun l =>
    match processLine alts l with
    | LineResult.event e => some e
    | _ => none)

/-! ## Tailer (watcher.py, follow) -/

/-- follow seeks to end-of-file on start: the initial read position is the
current number of lines. The model is line-granular: a file state is the list
of complete lines present, and the read position is a line index. -/
def followInit (content : List String) : Nat := content.length

/-- A run of the follow loop over a sequence of observed file states, one
poll per state: each poll yields the line at the read position and advances,
or yields nothing when no complete new line is available yet (readline
returned the empty string and the loop sleeps). Returns the (index, line)
pairs yielded, in order, and the final read position. -/
def followRun (snaps : List (List String)) (pos : Nat) : List (Nat × String) × Nat :=
  match snaps with
  | [] => ([], pos)
  | c :: rest =>
    match c.get? pos with
    | some line =>
      let r := followRun rest (pos + 1)
      ((pos, line) :: r.1, r.2)
    | none => followRun rest pos

/-! ## Startup checks (watcher.py run and cli.py main) -/

/-- The parts of the environment run() consults. -/
structure Env where
  envFileExists : Bool
  tgToken : Option String
  tgChat : Option String
  poe1LogExists : Bool
  poe2LogExists : Bool
deriving DecidableEq, Repr

/-- Python truthiness of os.getenv output: None and the empty string are
falsy (this is what `if not all([token, chat_id])` tests). -/
def truthyStr : Option String → Bool
  | none => false
  | some s => !s.isEmpty

/-- Watcher.run(): the returned status code and whether self.start was
reached (pipelines launched). Checks in source order: .env existence, then
at least one existing client log, then both credentials truthy. -/
def runResult (e : Env) : Nat × Bool :=
  if !e.envFileExists then (1, false)
  else if !(e.poe1LogExists || e.poe2LogExists) then (1, false)
  else if !(truthyStr e.tgToken && truthyStr e.tgChat) then (1, false)
  else (0, true)

/-- cli.main(): it calls watcher.run() and discards the returned status; when
run() returns normally, main falls through and the process exit code is 0
(the except branches fire only on exceptions, which the config checks never
raise). -/
def mainExitCode (e : Env) : Nat :=
  let _ := runResult e
  0

/-! ## Pattern construction (run.py Watcher versus src/pigeoneer Watcher) -/

/-- Join alternatives with a bar, as "|".join(currency) does. -/
def joinBar : List Chars → Chars
  | [] => []
  | [x] => x
  | x :: y :: rest => x ++ '|' :: joinBar (y :: rest)

/-- The characters of the fixed pattern text around the interpolation hole,
(\d+)\s*( on the left and ) on the right. -/
def patternLeft : Chars := "(\\d+)\\s*(".toList

/-- Pattern built by src/pigeoneer/watcher.py:
r"(\d+)\s*({0})".format("|".join(currency)). -/
def mkPatternWatcher (currency : List Chars) : Chars :=
  patternLeft ++ joinBar currency ++ [')']

/-- A single quote character, written by escape to keep source plain ASCII. -/
def sq : Char := '\x27'

/-- Python str() of a list of plain strings (no quotes or escapes inside the
names, which holds for currency words): bracketed, comma-separated, each
element wrapped in single quotes. -/
def pyListRepr (xs : List Chars) : Chars :=
  '[' :: joinCommaQuoted xs ++ [']']
where
  joinCommaQuoted : List Chars → Chars
    | [] => []
    | [x] => sq :: x ++ [sq]
    | x :: y :: rest => sq :: x ++ sq :: ',' :: ' ' :: joinCommaQuoted (y :: rest)

/-- Pattern built by run.py: the currency list is joined with bars only when
it has more than one element; otherwise the format call interpolates the
str() of the list itself. -/
def mkPatternRun (currency : List Chars) : Chars :=
  if 1 < currency.length then patternLeft ++ joinBar currency ++ [')']
  else patternLeft ++ pyListRepr currency ++ [')']

/-! ## Helper lemmas: chunk splitting -/

theorem splitChunksF_nil (f : Nat) : splitChunksF f [] = [] := by
  cases f <;> rfl

theorem splitChunksF_congr :
    ∀ f₁ f₂ (s : Chars), s.length ≤ f₁ → s.length ≤ f₂ →
      splitChunksF f₁ s = splitChunksF f₂ s := by
  intro f₁
  induction f₁ with
  | zero =>
    intro f₂ s h₁ _
    have hs : s = [] := by
      cases s with
      | nil => rfl
      | cons c cs => simp at h₁
    subst hs
    simp [splitChunksF_nil]
  | succ f ih =>
    intro f₂ s h₁ h₂
    cases s with
    | nil => simp [splitChunksF_nil]
    | cons c cs =>
      cases f₂ with
      | zero => simp at h₂
      | succ f₂ =>
        show (c :: cs).take MAX_LEN :: splitChunksF f ((c :: cs).drop MAX_LEN)
           = (c :: cs).take MAX_LEN :: splitChunksF f₂ ((c :: cs).drop MAX_LEN)
        have hlen : ((c :: cs).drop MAX_LEN).length = (c :: cs).length - MAX_LEN := by
          simp [List.length_drop]
        have hM : (1 : Nat) ≤ MAX_LEN := by simp [MAX_LEN]
        have := ih f₂ ((c :: cs).drop MAX_LEN)
          (by simp only [hlen]; simp at h₁ ⊢; omega)
          (by simp only [hlen]; simp at h₂ ⊢; omega)
        rw [this]

theorem splitChunks_cons (s : Chars) (hs : s ≠ []) :
    splitChunks s = s.take MAX_LEN :: splitChunks (s.drop MAX_LEN) := by
  cases s with
  | nil => exact absurd rfl hs
  | cons c cs =>
    show splitChunksF (cs.length + 1) (c :: cs) = _
    show (c :: cs).take MAX_LEN :: splitChunksF cs.length ((c :: cs).drop MAX_LEN) = _
    congr 1
    apply splitChunksF_congr
    · simp [List.length_drop, MAX_LEN]
    · simp [List.length_drop]

theorem splitChunks_length :
    ∀ (s : Chars), s ≠ [] → (splitChunks s).length = ceilDiv s.length MAX_LEN := by
  have main : ∀ f (s : Chars), s.length ≤ f → s ≠ [] →
      (splitChunksF f s).length = ceilDiv s.length MAX_LEN := by
    intro f
    induction f with
    | zero =>
      intro s h₁ hs
      cases s with
      | nil => exact absurd rfl hs
      | cons c cs => simp at h₁
    | succ f ih =>
      intro s h₁ hs
      cases s with
      | nil => exact absurd rfl hs
      | cons c cs =>
        show ((c :: cs).take MAX_LEN :: splitChunksF f ((c :: cs).drop MAX_LEN)).length = _
        by_cases hd : (c :: cs).drop MAX_LEN = []
        · have hle : (c :: cs).length ≤ MAX_LEN := List.drop_eq_nil_iff.mp hd
          rw [hd]
          simp only [splitChunksF_nil, List.length_cons, List.length_nil]
          simp only [ceilDiv, MAX_LEN] at *
          simp at hle ⊢
          omega
        · have hlt : MAX_LEN < (c :: cs).length := by
            by_contra hcon
            exact hd (List.drop_eq_nil_iff.mpr (by omega))
          have hrec := ih ((c :: cs).drop MAX_LEN)
            (by simp [List.length_drop, MAX_LEN] at *; omega) hd
          simp only [List.length_cons, hrec, List.length_drop]
          simp only [ceilDiv, MAX_LEN] at *
          simp at hlt ⊢
          omega
  intro s hs
  exact main s.length s le_rfl hs

theorem splitChunks_getElem? :
    ∀ (i : Nat) (s : Chars),
      (splitChunks s)[i]? =
        if i * MAX_LEN < s.length then some ((s.drop (i * MAX_LEN)).take MAX_LEN)
        else none := by
  intro i
  induction i with
  | zero =>
    intro s
    cases s with
    | nil => simp [splitChunks, splitChunksF_nil]
    | cons c cs =>
      rw [splitChunks_cons _ (by simp)]
      simp
  | succ i ih =>
    intro s
    cases s with
    | nil => simp [splitChunks, splitChunksF_nil]
    | cons c cs =>
      rw [splitChunks_cons _ (by simp)]
      rw [List.getElem?_cons_succ, ih ((c :: cs).drop MAX_LEN)]
      rw [List.length_drop, List.drop_drop]
      have harith : MAX_LEN + i * MAX_LEN = (i + 1) * MAX_LEN := by
        simp only [MAX_LEN]
        omega
      rw [harith]
      have hcond : (i * MAX_LEN < (c :: cs).length - MAX_LEN)
                 ↔ ((i + 1) * MAX_LEN < (c :: cs).length) := by
        simp only [MAX_LEN, List.length_cons]
        omega
      by_cases hc : (i + 1) * MAX_LEN < (c :: cs).length
      · rw [if_pos (hcond.mpr hc), if_pos hc]
      · rw [if_neg (fun h => hc (hcond.mp h)), if_neg hc]

theorem sendMessageChunks_eq_splitChunks (s : Chars) (hs : s ≠ []) :
    sendMessageChunks s = splitChunks s := by
  by_cases h : s.length ≤ MAX_LEN
  · rw [sendMessageChunks, if_pos h, splitChunks_cons s hs,
        List.take_of_length_le h, List.drop_eq_nil_iff.mpr h]
    simp [splitChunks, splitChunksF_nil]
  · rw [sendMessageChunks, if_neg h]

theorem sendMessageChunks_length (s : Chars) (hs : s ≠ []) :
    (sendMessageChunks s).length = ceilDiv s.length MAX_LEN := by
  rw [sendMessageChunks_eq_splitChunks s hs]
  exact splitChunks_length s hs

theorem sendMessageChunks_getElem? (s : Chars) (hs : s ≠ []) (i : Nat) :
    (sendMessageChunks s)[i]? =
      if i * MAX_LEN < s.length then some ((s.drop (i * MAX_LEN)).take MAX_LEN)
      else none := by
  rw [sendMessageChunks_eq_splitChunks s hs]
  exact splitChunks_getElem? i s

/-! ## Helper lemmas: sequential delivery -/

theorem sendSeq_firstFail (fail : Nat → Bool) :
    ∀ (k : Nat) (cs : List Chars) (i : Nat),
      fail (i + k) = true → (∀ j, j < k → fail (i + j) = false) →
      k < cs.length →
      sendSeq fail i cs = (List.range' i k, false) := by
  intro k
  induction k with
  | zero =>
    intro cs i hk _ hlen
    cases cs with
    | nil => simp at hlen
    | cons c cs =>
      simp only [Nat.add_zero] at hk
      simp [sendSeq, hk, List.range']
  | succ k ih =>
    intro cs i hk hprev hlen
    cases cs with
    | nil => simp at hlen
    | cons c cs =>
      have h0 : fail i = false := by
        have := hprev 0 (Nat.succ_pos k)
        simpa using this
      have hrec := ih cs (i + 1)
        (by rw [show i + 1 + k = i + (k + 1) by omega]; exact hk)
        (by
          intro j hj
          rw [show i + 1 + j = i + (j + 1) by omega]
          exact hprev (j + 1) (by omega))
        (by simp at hlen; omega)
      simp only [sendSeq, h0, Bool.false_eq_true, if_false, hrec]
      simp [List.range'_succ]

/-! ## Helper lemmas: findAll only returns configured currency names -/

theorem tryAlts_mem (alts : List String) (s : Chars) (a : String) (rest : Chars)
    (h : tryAlts alts s = some (a, rest)) : a ∈ alts := by
  induction alts with
  | nil => simp [tryAlts] at h
  | cons x xs ih =>
    by_cases hp : x.toList.isPrefixOf s
    · simp only [tryAlts, hp, if_true, Option.some_inj, Prod.mk.injEq] at h
      simp [h.1]
    · simp only [tryAlts, hp, Bool.false_eq_true, if_false] at h
      exact List.mem_cons_of_mem x (ih h)

theorem spacesAlts_mem (alts : List String) :
    ∀ (j : Nat) (s : Chars) (a : String) (rest : Chars),
      spacesAlts alts j s = some (a, rest) → a ∈ alts := by
  intro j
  induction j with
  | zero =>
    intro s a rest h
    exact tryAlts_mem alts s a rest h
  | succ j ih =>
    intro s a rest h
    rw [spacesAlts] at h
    cases htry : tryAlts alts (s.drop (j + 1)) with
    | some r =>
      rw [htry] at h
      have h2 : some r = some (a, rest) := h
      injection h2 with h3
      rw [h3] at htry
      exact tryAlts_mem alts _ a rest htry
    | none =>
      rw [htry] at h
      exact ih s a rest h

theorem digitsSpacesAlts_mem (alts : List String) :
    ∀ (k : Nat) (s : Chars) (d a : String) (rest : Chars),
      digitsSpacesAlts alts k s = some (d, a, rest) → a ∈ alts := by
  intro k
  induction k with
  | zero =>
    intro s d a rest h
    simp [digitsSpacesAlts] at h
  | succ k ih =>
    intro s d a rest h
    rw [digitsSpacesAlts] at h
    cases hsp : spacesAlts alts (((s.drop (k + 1)).takeWhile isPySpace).length)
        (s.drop (k + 1)) with
    | some r =>
      rw [hsp] at h
      have h2 : some ((s.take (k + 1)).asString, r.1, r.2) = some (d, a, rest) := h
      injection h2 with h3
      have ha : r.1 = a := congrArg (fun t => t.2.1) h3
      have := spacesAlts_mem alts _ _ r.1 r.2 (by rw [hsp])
      rw [ha] at this
      exact this
    | none =>
      rw [hsp] at h
      exact ih s d a rest h

theorem matchAt_mem (alts : List String) (s : Chars) (d a : String) (rest : Chars)
    (h : matchAt alts s = some (d, a, rest)) : a ∈ alts :=
  digitsSpacesAlts_mem alts _ s d a rest h

theorem findAllF_mem (alts : List String) :
    ∀ (f : Nat) (s : Chars) (p : String × String),
      p ∈ findAllF alts f s → p.2 ∈ alts := by
  intro f
  induction f with
  | zero =>
    intro s p hp
    simp [findAllF] at hp
  | succ f ih =>
    intro s p hp
    cases s with
    | nil => simp [findAllF] at hp
    | cons c cs =>
      rw [findAllF] at hp
      cases hm : matchAt alts (c :: cs) with
      | some r =>
        rw [hm] at hp
        have hp2 : p ∈ (r.1, r.2.1) :: findAllF alts f r.2.2 := hp
        rcases List.mem_cons.mp hp2 with h | h
        · rw [h]
          exact matchAt_mem alts (c :: cs) r.1 r.2.1 r.2.2 (by rw [hm])
        · exact ih r.2.2 p h
      | none =>
        rw [hm] at hp
        exact ih cs p hp

theorem findAll_mem (alts : List String) (s : Chars) (p : String × String)
    (hp : p ∈ findAll alts s) : p.2 ∈ alts :=
  findAllF_mem alts s.length s p hp

/-! ## Helper lemmas: follow loop positions -/

theorem followRun_ge :
    ∀ (snaps : List (List String)) (pos : Nat) (q : Nat × String),
      q ∈ (followRun snaps pos).1 → pos ≤ q.1 := by
  intro snaps
  induction snaps with
  | nil =>
    intro pos q hq
    simp [followRun] at hq
  | cons c rest ih =>
    intro pos q hq
    rw [followRun] at hq
    cases hg : c.get? pos with
    | some line =>
      rw [hg] at hq
      have hq2 : q ∈ (pos, line) :: (followRun rest (pos + 1)).1 := hq
      rcases List.mem_cons.mp hq2 with h | h
      · rw [h]
      · have := ih (pos + 1) q h
        omega
    | none =>
      rw [hg] at hq
      exact ih pos q hq

theorem followRun_pairwise :
    ∀ (snaps : List (List String)) (pos : Nat),
      List.Pairwise (fun q1 q2 => q1.1 < q2.1) (followRun snaps pos).1 := by
  intro snaps
  induction snaps with
  | nil =>
    intro pos
    simp [followRun]
  | cons c rest ih =>
    intro pos
    rw [followRun]
    cases hg : c.get? pos with
    | some line =>
      show List.Pairwise _ ((pos, line) :: (followRun rest (pos + 1)).1)
      refine List.pairwise_cons.mpr ⟨?_, ih (pos + 1)⟩
      intro q hq
      have := followRun_ge rest (pos + 1) q hq
      show pos < q.1
      omega
    | none => exact ih pos

/-! ## Helper lemmas: pySplit and trailing characters -/

theorem pySplitAux_ne_nil (sep : Char) :
    ∀ (s acc : Chars), pySplitAux sep acc s ≠ [] := by
  intro s
  induction s with
  | nil =>
    intro acc
    simp [pySplitAux]
  | cons c cs ih =>
    intro acc
    by_cases hc : c = sep
    · simp [pySplitAux, hc]
    · simp only [pySplitAux, hc, if_false]
      exact ih (c :: acc)

theorem getLast?_cons_of_ne_nil {α : Type} (a : α) (t : List α) (ht : t ≠ []) :
    (a :: t).getLast? = t.getLast? := by
  cases t with
  | nil => exact absurd rfl ht
  | cons b t => exact List.getLast?_cons_cons

theorem pySplitAux_snoc_last (sep c : Char) (hc : c ≠ sep) :
    ∀ (s acc : Chars), ∃ m,
      (pySplitAux sep acc (s ++ [c])).getLast? = some m ∧ m.getLast? = some c := by
  intro s
  induction s with
  | nil =>
    intro acc
    refine ⟨acc.reverse ++ [c], ?_, List.getLast?_concat _⟩
    show (pySplitAux sep acc [c]).getLast? = _
    simp [pySplitAux, hc]
  | cons x xs ih =>
    intro acc
    by_cases hx : x = sep
    · show ∃ m, (pySplitAux sep acc (x :: (xs ++ [c]))).getLast? = some m ∧ _
      rw [pySplitAux, if_pos hx]
      obtain ⟨m, hm1, hm2⟩ := ih []
      exact ⟨m,
        (getLast?_cons_of_ne_nil _ _ (pySplitAux_ne_nil sep (xs ++ [c]) [])).trans hm1,
        hm2⟩
    · show ∃ m, (pySplitAux sep acc (x :: (xs ++ [c]))).getLast? = some m ∧ _
      rw [pySplitAux, if_neg hx]
      exact ih (x :: acc)

theorem pySplit_last_of_snoc (sep c : Char) (hc : c ≠ sep) (s : Chars) :
    ∃ m, (pySplit sep (s ++ [c])).getLast? = some m ∧ m.getLast? = some c :=
  pySplitAux_snoc_last sep c hc s []

theorem replicate_pos_ne_nil (n : Nat) (hn : 0 < n) (a : Char) :
    List.replicate n a ≠ [] :=
  List.ne_nil_of_length_pos (by rw [List.length_replicate]; omega)

theorem length_two_eq {α : Type} (l : List α) (h : l.length = 2) :
    ∃ a b, l = [a, b] := by
  cases l with
  | nil => simp at h
  | cons a t =>
    cases t with
    | nil => simp at h
    | cons b t2 =>
      cases t2 with
      | nil => exact ⟨a, b, rfl⟩
      | cons x t3 => simp [List.length_cons] at h

/-! ## Claims -/

/-- C1 (counterexample): the line consisting of the marker and one currency
match but no closing bracket contains the marker and has one pattern match
before any stash marker, yet extraction does not produce a TradeEvent: the
bracket-split indexing raises instead. -/
theorem c1_extraction_counterexample :
    containsSub fromMarker "@From 5 divine".toList = true ∧
    findAll defaultCurrency (takeBeforeSub stashMarker "@From 5 divine".toList)
      = [("5", "divine")] ∧
    processLine defaultCurrency "@From 5 divine".toList = LineResult.err :=
  ⟨by decide, by decide, by decide⟩

/-- C1 (amended): a line without the marker yields no event; a line with the
marker, at least one pattern match before the stash marker, and at least one
closing bracket yields a TradeEvent whose pair list has exactly one entry
per non-overlapping match of the pattern in the truncated line. The
amendment adds the closing-bracket condition: on marker lines with a match
but no bracket the code raises instead of producing an event. -/
theorem c1_extraction_amended :
    (∀ line : Chars, containsSub fromMarker line = false →
      processLine defaultCurrency line = LineResult.noEvent) ∧
    (∀ line : Chars, containsSub fromMarker line = true →
      findAll defaultCurrency (takeBeforeSub stashMarker line) ≠ [] →
      2 ≤ (pySplit ']' line).length →
      ∃ e, processLine defaultCurrency line = LineResult.event e ∧
        e.pairs.length
          = (findAll defaultCurrency (takeBeforeSub stashMarker line)).length) := by
  constructor
  · intro line h
    simp [processLine, h]
  · intro line h1 h2 h3
    have hlt : 1 < (pySplit ']' line).length := by omega
    have hsome : (pySplit ']' line)[1]? = some ((pySplit ']' line)[1]) :=
      List.getElem?_eq_getElem hlt
    refine ⟨{ tradeMessage := ((pySplit ']' line)[1]).asString
              item := "N/A"
              salePrice := joinPairs (findAll defaultCurrency (takeBeforeSub stashMarker line))
              pairs := findAll defaultCurrency (takeBeforeSub stashMarker line) }, ?_, rfl⟩
    simp only [processLine, h1, if_true, if_neg h2, hsome]

/-- C1 (witness): the amended theorem applied to one marker-free line and
one well-formed trade line. -/
theorem c1_extraction_witness :
    processLine defaultCurrency "no marker here 5 divine".toList = LineResult.noEvent ∧
    ∃ e, processLine defaultCurrency "[x] @From buy 5 divine (stash tab)".toList
        = LineResult.event e ∧
      e.pairs.length = (findAll defaultCurrency
        (takeBeforeSub stashMarker "[x] @From buy 5 divine (stash tab)".toList)).length :=
  ⟨c1_extraction_amended.1 _ (by decide),
   c1_extraction_amended.2 _ (by decide) (by decide) (by decide)⟩

/-- C2 (counterexample): for empty text the code makes one outbound call
(carrying the empty string) whereas the ceiling count is 0, so the number of
calls is not the ceiling of length over MAX_LEN for every text. -/
theorem c2_chunking_counterexample :
    (sendMessageChunks ([] : Chars)).length = 1 ∧
    ceilDiv ([] : Chars).length MAX_LEN = 0 :=
  ⟨by decide, by decide⟩

/-- C2 (amended): for every nonempty text the number of outbound calls is
the ceiling of length over MAX_LEN and the i-th call carries exactly the
slice from i times MAX_LEN of length at most MAX_LEN, in increasing order of
i (the list order of the calls); the empty text instead produces one call
with the empty text; and a 9000-character text produces exactly 3 calls of
lengths 4096, 4096 and 808. -/
theorem c2_chunking_amended :
    (∀ text : Chars, text ≠ [] →
      (sendMessageChunks text).length = ceilDiv text.length MAX_LEN ∧
      ∀ i, i * MAX_LEN < text.length →
        (sendMessageChunks text)[i]? = some ((text.drop (i * MAX_LEN)).take MAX_LEN)) ∧
    sendMessageChunks ([] : Chars) = [[]] ∧
    (sendMessageChunks (List.replicate 9000 'a')).map List.length
      = [4096, 4096, 808] := by
  refine ⟨?_, by decide, ?_⟩
  · intro text ht
    refine ⟨sendMessageChunks_length text ht, ?_⟩
    intro i hi
    rw [sendMessageChunks_getElem? text ht i, if_pos hi]
  · rw [sendMessageChunks_eq_splitChunks _ (replicate_pos_ne_nil _ (by norm_num) _)]
    rw [splitChunks_cons _ (replicate_pos_ne_nil _ (by norm_num) _)]
    rw [show (List.replicate 9000 'a').take MAX_LEN = List.replicate 4096 'a' by
      rw [List.take_replicate]; norm_num [MAX_LEN]]
    rw [show (List.replicate 9000 'a').drop MAX_LEN = List.replicate 4904 'a' by
      rw [List.drop_replicate]; norm_num [MAX_LEN]]
    rw [splitChunks_cons _ (replicate_pos_ne_nil _ (by norm_num) _)]
    rw [show (List.replicate 4904 'a').take MAX_LEN = List.replicate 4096 'a' by
      rw [List.take_replicate]; norm_num [MAX_LEN]]
    rw [show (List.replicate 4904 'a').drop MAX_LEN = List.replicate 808 'a' by
      rw [List.drop_replicate]; norm_num [MAX_LEN]]
    rw [splitChunks_cons _ (replicate_pos_ne_nil _ (by norm_num) _)]
    rw [show (List.replicate 808 'a').take MAX_LEN = List.replicate 808 'a' by
      rw [List.take_replicate]; norm_num [MAX_LEN]]
    rw [show (List.replicate 808 'a').drop MAX_LEN = ([] : Chars) by
      rw [List.drop_replicate]; norm_num [MAX_LEN]]
    simp only [splitChunks, List.length_nil, splitChunksF_nil, List.map_cons,
               List.map_nil, List.length_replicate]

/-- C2 (witness): the amended count property applied to a concrete
two-character text. -/
theorem c2_chunking_witness :
    (sendMessageChunks "hi".toList).length = ceilDiv "hi".toList.length MAX_LEN :=
  (c2_chunking_amended.1 "hi".toList (by decide)).1

/-- C3 (counterexample): a malformed marker line (match but no closing
bracket) followed by a well-formed trade line: alone, the second line yields
an event, but in a pass where the malformed line comes first the pass aborts
with no events at all, so the processing of subsequent lines is affected. -/
theorem c3_malformed_counterexample :
    processLine defaultCurrency "[x] @From pay 3 chaos".toList =
      LineResult.event { tradeMessage := " @From pay 3 chaos", item := "N/A",
                         salePrice := "3 chaos", pairs := [("3", "chaos")] } ∧
    processLines defaultCurrency
      ["@From 5 divine".toList, "[x] @From pay 3 chaos".toList] = ([], false) :=
  ⟨by decide, by decide⟩

/-- C3 (amended): a malformed line does not fail in isolation: the uncaught
IndexError aborts the current tail pass. The events of a pass are exactly
those of the lines before the first malformed line, and the pass completes
without an exception exactly when no line in it is malformed (the outer
loop then logs the error, sleeps, and reopens the file at its end). -/
theorem c3_malformed_amended (alts : List String) (ls : List Chars) :
    processLines alts ls =
      (lineEvents alts (ls.takeWhile (fun l => !lineErr alts l)),
       ls.all (fun l => !lineErr alts l)) := by
  induction ls with
  | nil => rfl
  | cons l ls ih =>
    cases h : processLine alts l with
    | err =>
      simp [processLines, h, lineErr, lineEvents, List.takeWhile_cons, List.all_cons]
    | noEvent =>
      simp [processLines, h, lineErr, lineEvents, List.takeWhile_cons, List.all_cons,
            List.filterMap_cons, ih]
    | event e =>
      simp [processLines, h, lineErr, lineEvents, List.takeWhile_cons, List.all_cons,
            List.filterMap_cons, ih]

/-- C4: in a multi-chunk send where the delivery of chunk k raises and all
earlier chunks succeed, exactly the chunks with indices below k are sent, in
increasing order, no chunk with index greater than k is sent, and the whole
send reports a single failure to the caller. -/
theorem c4_partial_delivery (fail : Nat → Bool) (text : Chars) (k : Nat)
    (_hmulti : MAX_LEN < text.length)
    (hk : fail k = true) (hprev : ∀ j, j < k → fail j = false)
    (hlt : k < (sendMessageChunks text).length) :
    sendMessageRun fail text = (List.range k, false) := by
  rw [sendMessageRun, List.range_eq_range']
  exact sendSeq_firstFail fail k (sendMessageChunks text) 0
    (by simpa using hk) (fun j hj => by simpa using hprev j hj) hlt

/-- C4 (witness): a 4097-character text splits into two chunks; when the
second outbound call fails, only chunk 0 is sent and the send reports
failure. -/
theorem c4_partial_delivery_witness :
    sendMessageRun (fun j => j == 1) (List.replicate 4097 'a') = (List.range 1, false) := by
  have hlen : (sendMessageChunks (List.replicate 4097 'a')).length = 2 := by
    rw [sendMessageChunks_length _ (replicate_pos_ne_nil _ (by norm_num) _)]
    rw [List.length_replicate]
    norm_num [ceilDiv, MAX_LEN]
  exact c4_partial_delivery (fun j => j == 1) (List.replicate 4097 'a') 1
    (by rw [List.length_replicate]; norm_num [MAX_LEN]) (by decide)
    (by
      intro j hj
      have hj0 : j = 0 := by omega
      rw [hj0]
      decide)
    (by rw [hlen]; norm_num)

/-- C5: no (amount, currency) pair is ever counted for a currency name
outside the configured default set, whatever the line contents. -/
theorem c5_currency_outside_set (name : String) (hname : name ∉ defaultCurrency)
    (s : Chars) (p : String × String) (hp : p ∈ findAll defaultCurrency s) :
    p.2 ≠ name := by
  intro hcontra
  exact hname (hcontra ▸ findAll_mem defaultCurrency s p hp)

/-- C5 (witness): on a line with digits adjacent to an unconfigured name,
the pair actually produced does not carry that name. -/
theorem c5_currency_outside_set_witness :
    (("2", "divine") ∈ findAll defaultCurrency "2 divine 5 gold".toList) ∧
    ("2", "divine").2 ≠ "gold" :=
  ⟨by decide, c5_currency_outside_set "gold" (by decide) "2 divine 5 gold".toList
    ("2", "divine") (by decide)⟩

/-- C6: in one run of the tailer the yielded positions are strictly
increasing, so no line is ever yielded twice; and when the run starts by
seeking to the end of the content present at (re)open, every yielded
position is at or past that end, so content present before the seek is
never replayed. -/
theorem c6_tail_no_replay (snaps : List (List String)) (content0 : List String) :
    List.Pairwise (fun q1 q2 => q1.1 < q2.1)
      (followRun snaps (followInit content0)).1 ∧
    ∀ q ∈ (followRun snaps (followInit content0)).1, followInit content0 ≤ q.1 :=
  ⟨followRun_pairwise snaps (followInit content0),
   fun q hq => followRun_ge snaps (followInit content0) q hq⟩

/-- C7: evaluation at the failing input. With the .env file and the client
logs present but TG_TOKEN unset, run() computes status 1 and never reaches
self.start, yet cli.main discards the returned status and the process exit
code is 0 — not the non-zero exit the claim states. -/
theorem c7_config_exit_evaluation :
    runResult { envFileExists := true, tgToken := none, tgChat := some "123",
                poe1LogExists := true, poe2LogExists := true } = (1, false) ∧
    mainExitCode { envFileExists := true, tgToken := none, tgChat := some "123",
                   poe1LogExists := true, poe2LogExists := true } = 0 :=
  ⟨by decide, by decide⟩

/-- C8 (counterexample): a newline-terminated trade line produces a
TradeEvent whose message text still ends with the newline: the tailer and
the extractor never strip it. -/
theorem c8_newline_counterexample :
    processLine defaultCurrency "[x] @From sell 5 divine\n".toList =
      LineResult.event { tradeMessage := " @From sell 5 divine\n", item := "N/A",
                         salePrice := "5 divine", pairs := [("5", "divine")] } ∧
    " @From sell 5 divine\n".toList.getLast? = some '\n' :=
  ⟨by decide, by decide⟩

/-- C8 (amended): lines are consumed exactly as readline returned them, the
trailing newline included; consequently, for a newline-terminated line with
exactly one closing bracket, the trade message stored in the produced
TradeEvent ends with that newline. The amendment inverts the original
claim, which said the newline is stripped. -/
theorem c8_newline_amended (line : Chars) (e : TradeEvent)
    (hnl : line.getLast? = some '\n')
    (hsplit : (pySplit ']' line).length = 2)
    (hev : processLine defaultCurrency line = LineResult.event e) :
    e.tradeMessage.toList.getLast? = some '\n' := by
  have hne : line ≠ [] := by
    intro h
    rw [h] at hnl
    simp at hnl
  have hdecomp : line.dropLast ++ [line.getLast hne] = line :=
    List.dropLast_append_getLast hne
  have hlastc : line.getLast hne = '\n' := by
    have h2 := List.getLast?_eq_getLast line hne
    rw [h2] at hnl
    exact Option.some_injective _ hnl
  obtain ⟨m, hm1, hm2⟩ :
      ∃ m, (pySplit ']' line).getLast? = some m ∧ m.getLast? = some '\n' := by
    have := pySplit_last_of_snoc ']' '\n' (by decide) line.dropLast
    rw [hlastc] at hdecomp
    rw [hdecomp] at this
    exact this
  obtain ⟨a, b, hab⟩ := length_two_eq (pySplit ']' line) hsplit
  have hb : m = b := by
    rw [hab] at hm1
    simp at hm1
    exact hm1.symm
  simp only [processLine] at hev
  split at hev
  · split at hev
    · cases hev
    · split at hev
      · cases hev
      · next m2 heq =>
        cases hev
        rw [hab] at heq
        simp at heq
        show (List.asString m2).toList.getLast? = some '\n'
        have hm2b : m2 = b := heq.symm
        rw [hm2b, ← hb]
        exact hm2
  · cases hev

/-- C8 (witness): the amended theorem applied to a concrete
newline-terminated trade line. -/
theorem c8_newline_witness :
    ∃ e, processLine defaultCurrency "[x] @From sell 5 divine\n".toList
        = LineResult.event e ∧
      e.tradeMessage.toList.getLast? = some '\n' :=
  ⟨{ tradeMessage := " @From sell 5 divine\n", item := "N/A",
     salePrice := "5 divine", pairs := [("5", "divine")] },
   by decide,
   c8_newline_amended "[x] @From sell 5 divine\n".toList _ (by decide) (by decide)
     (by decide)⟩

/-- C9: every produced TradeEvent has Sale Price equal to its pairs each
rendered as amount, one space, currency, joined with the five-character
separator (space, and, space); and the two-amount scenario line yields the
pairs ("2","divine") and ("30","chaos") with Sale Price
"2 divine and 30 chaos". -/
theorem c9_sale_price_format :
    (∀ (line : Chars) (e : TradeEvent),
      processLine defaultCurrency line = LineResult.event e →
      e.salePrice = String.intercalate " and "
        (e.pairs.map (fun p => p.1 ++ " " ++ p.2))) ∧
    processLine defaultCurrency
      "[12:00] @From Bob: selling for 2 divine and 30 chaos in Standard (stash tab)".toList
      = LineResult.event
        { tradeMessage := " @From Bob: selling for 2 divine and 30 chaos in Standard (stash tab)"
          item := "N/A"
          salePrice := "2 divine and 30 chaos"
          pairs := [("2", "divine"), ("30", "chaos")] } := by
  constructor
  · intro line e hev
    simp only [processLine] at hev
    split at hev
    · split at hev
      · cases hev
      · split at hev
        · cases hev
        · cases hev
          rfl
    · cases hev
  · decide

/-- C9 (witness): the format property applied to a concrete line. -/
theorem c9_sale_price_format_witness :
    ({ tradeMessage := " @From pay 3 chaos", item := "N/A", salePrice := "3 chaos",
       pairs := [("3", "chaos")] } : TradeEvent).salePrice
      = String.intercalate " and "
        (({ tradeMessage := " @From pay 3 chaos", item := "N/A", salePrice := "3 chaos",
            pairs := [("3", "chaos")] } : TradeEvent).pairs.map
          (fun p => p.1 ++ " " ++ p.2)) :=
  c9_sale_price_format.1 "[x] @From pay 3 chaos".toList _ (by decide)

/-- C10: for every currency list with at least two names the two Watcher
constructors build the same pattern text (so extraction, which depends only
on the pattern, is identical); for every single-name list the two
constructions differ, because the run.py format call interpolates the str()
of the unjoined list. -/
theorem c10_pattern_refinement :
    (∀ currency : List Chars, 2 ≤ currency.length →
      mkPatternRun currency = mkPatternWatcher currency) ∧
    (∀ c : Chars, mkPatternRun [c] ≠ mkPatternWatcher [c]) := by
  constructor
  · intro currency h
    rw [mkPatternRun, if_pos (by omega), mkPatternWatcher]
  · intro c hcontra
    rw [mkPatternRun, if_neg (by simp)] at hcontra
    have hlen := congrArg List.length hcontra
    simp only [mkPatternWatcher, pyListRepr, pyListRepr.joinCommaQuoted, joinBar,
               List.length_append, List.length_cons] at hlen
    omega

/-- C10 (witness): the two constructions agree on the two-name list and
differ on the one-name list. -/
theorem c10_pattern_refinement_witness :
    mkPatternRun ["divine".toList, "chaos".toList]
      = mkPatternWatcher ["divine".toList, "chaos".toList] ∧
    mkPatternRun ["divine".toList] ≠ mkPatternWatcher ["divine".toList] :=
  ⟨c10_pattern_refinement.1 ["divine".toList, "chaos".toList] (by decide),
   c10_pattern_refinement.2 "divine".toList⟩

end Pigeoneer
